import Mathlib

/-
Verification of the New Zealand Supreme Court judgment crawler
(src/NZ_crawler.py).

Strings are embedded as lists of characters (`Chars`).  The regular
expressions of the `PATTERNS` dictionary and of the citation search are
embedded as syntax trees (`Re`) over a small backtracking engine `runs`
whose result lists all possible remainders of a match attempt in the
priority order of the Python `re` module (greedy repetition tries longer
first, lazy repetition tries shorter first, alternation tries the left
branch first, bounded repetition tries more iterations first).  The head
of `runs re s` is therefore the remainder of the match Python would
produce at this position; `finditer` mirrors `re.finditer` (scan for the
leftmost match, continue after its end, step one character after an
empty match).
-/

abbrev Chars := List Char

/-- The whitespace characters matched by Python's `\s` on `str` patterns. -/
def pySpaceChars : List Char :=
  [' ', '\t', '\n', '\r', '\x0b', '\x0c', '\x1c', '\x1d', '\x1e', '\x1f',
   '\x85', '\xa0', '\u1680', '\u2000', '\u2001', '\u2002', '\u2003', '\u2004',
   '\u2005', '\u2006', '\u2007', '\u2008', '\u2009', '\u200a', '\u2028',
   '\u2029', '\u202f', '\u205f', '\u3000']

def isSpacePy (c : Char) : Bool := pySpaceChars.contains c

/-- Character class of `[^\n]`, also of `.` (dot does not match a newline). -/
def pNotNl : Char → Bool := fun c => !(c == '\n')

/-- Character class of `[^\n.!?]`. -/
def pKeep : Char → Bool := fun c => !(c == '\n' || c == '.' || c == '!' || c == '?')

/-- Character class of `[\.!?]`. -/
def pTerm : Char → Bool := fun c => c == '.' || c == '!' || c == '?'

/-- Character class of `[\s\n]`. -/
def pSpaceNl : Char → Bool := fun c => isSpacePy c || c == '\n'

/-- Regular-expression syntax: exactly the constructs used by the six
`PATTERNS` entries and the citation search of the crawler.  Stars are
restricted to single character classes, which is all the source uses. -/
inductive Re where
  | eps
  | cls (p : Char → Bool)
  | seq (r₁ r₂ : Re)
  | alt (r₁ r₂ : Re)
  | starG (p : Char → Bool)
  | starL (p : Char → Bool)
  | repAtMost (r : Re) (n : Nat)
  | look (r : Re)
  | dollar

/-- Length of the longest run of characters satisfying `p` at the front. -/
def takeWhileLen (p : Char → Bool) : Chars → Nat
  | [] => 0
  | c :: cs => if p c then takeWhileLen p cs + 1 else 0

/-- Remainders of matching `X{0,n}` when `f` gives the remainders of one `X`:
more iterations are tried first, mirroring greedy bounded repetition. -/
def runsRep (f : Chars → List Chars) : Nat → Chars → List Chars
  | 0, s => [s]
  | n + 1, s => ((f s).flatMap (fun t => runsRep f n t)) ++ [s]

/-- All remainders of a match of `re` at the front of `s`, in Python's
backtracking priority order; the head is the remainder Python commits to. -/
def runs : Re → Chars → List Chars
  | .eps, s => [s]
  | .cls p, s =>
    match s with
    | [] => []
    | c :: cs => if p c then [cs] else []
  | .seq r₁ r₂, s => (runs r₁ s).flatMap (fun t => runs r₂ t)
  | .alt r₁ r₂, s => runs r₁ s ++ runs r₂ s
  | .starG p, s =>
    (List.range (takeWhileLen p s + 1)).map (fun i => s.drop (takeWhileLen p s - i))
  | .starL p, s =>
    (List.range (takeWhileLen p s + 1)).map (fun i => s.drop i)
  | .repAtMost r n, s => runsRep (fun t => runs r t) n s
  | .look r, s => if (runs r s).isEmpty then [] else [s]
  | .dollar, s => if s = [] ∨ s = ['\n'] then [s] else []

/-- Case-insensitive single-character comparison used for the literals of a
pattern compiled with the `(?i)` flag (ASCII folding, as in `re.IGNORECASE`
on the ASCII texts at issue). -/
def ciF : Char → Char → Bool := fun pc c => c.toLower == pc.toLower

/-- Case-sensitive single-character comparison, for patterns without `(?i)`. -/
def csF : Char → Char → Bool := fun pc c => c == pc

/-- A literal word of a pattern, one `cls` per character. -/
def lit (f : Char → Char → Bool) : Chars → Re
  | [] => .eps
  | c :: cs => .seq (.cls (f c)) (lit f cs)

/-- Whether the word `phrase` matches (under the character comparison `f`)
at the front of `t`; the decision procedure matching `runs (lit f phrase)`. -/
def litTakes (f : Char → Char → Bool) : Chars → Chars → Bool
  | [], _ => true
  | _ :: _, [] => false
  | c :: cs, x :: xs => f c x && litTakes f cs xs

/-- One iteration `(?:[^\n.!?]*[\s\n])` of the clause preamble. -/
def reQIter : Re := .seq (.starG pKeep) (.cls pSpaceNl)

/-- The lookahead `(?=\s|$)`. -/
def reQLook : Re := .look (.alt (.cls isSpacePy) .dollar)

/-- The sentence end `[\.!?](?=\s|$)`. -/
def reQTail : Re := .seq (.cls pTerm) reQLook

/-- The lazy continuation `.*?(?:[\.!?](?=\s|$))`. -/
def reQLazy : Re := .seq (.starL pNotNl) reQTail

/-- `(?i)(?:[^\n.!?]*[\s\n]){0,50}The question is whether.*?(?:[\.!?](?=\s|$))` -/
def reQuestion : Re :=
  .seq (.repAtMost reQIter 50)
    (.seq (lit ciF "The question is whether".data) reQLazy)

/-- `(?i)[^\n]*PHRASE[^\n]*` (with `f` selecting the case-sensitivity). -/
def lineRe (f : Char → Char → Bool) (phrase : Chars) : Re :=
  .seq (.starG pNotNl) (.seq (lit f phrase) (.starG pNotNl))

/-- `(?i)[^\n]*The leading case[^\n]*` -/
def reLeadingCase : Re := lineRe ciF "The leading case".data

/-- `(?i)[^\n]*The leading authority[^\n]*` -/
def reLeadingAuthority : Re := lineRe ciF "The leading authority".data

/-- `(?i)[^\n]*The issue here is whether[^\n]*` -/
def reIssueHere : Re := lineRe ciF "The issue here is whether".data

/-- `(i)[^\n]*The applicable test is[^\n]*`: the malformed flag group `(i)`
is an ordinary group matching the literal character `i`, and the pattern is
case-sensitive (there is no `(?i)`). -/
def reApplicableTest : Re :=
  .seq (.cls (csF 'i')) (lineRe csF "The applicable test is".data)

/-- `(?i)[^\n]*The applicable threshold is[^\n]*` -/
def reApplicableThreshold : Re := lineRe ciF "The applicable threshold is".data

/-- The `PATTERNS` dictionary, in its insertion (iteration) order. -/
def PATTERNS : List (String × Re) :=
  [("The question is whether", reQuestion),
   ("The leading case", reLeadingCase),
   ("The leading authority", reLeadingAuthority),
   ("The issue here is whether", reIssueHere),
   ("The applicable test is", reApplicableTest),
   ("The applicable threshold is", reApplicableThreshold)]

/-- Length of the leftmost-biased match of `re` at the front of `s`
(`none` when `re` does not match here). -/
def firstMatchLen (re : Re) (s : Chars) : Option Nat :=
  match runs re s with
  | [] => none
  | t :: _ => some (s.length - t.length)

/-- Worker for `finditer`: scan from `pos` for a match, emit its span,
continue after its end (one character further when the match is empty). -/
def finditerAux (re : Re) (s : Chars) : Nat → Nat → List (Nat × Nat)
  | _, 0 => []
  | pos, fuel + 1 =>
    match firstMatchLen re (s.drop pos) with
    | some n =>
      (pos, pos + n) :: finditerAux re s (if n = 0 then pos + 1 else pos + n) fuel
    | none => if pos < s.length then finditerAux re s (pos + 1) fuel else []

/-- `re.finditer(regex, s)`: the spans of all non-overlapping matches, in
order of appearance. -/
def finditer (re : Re) (s : Chars) : List (Nat × Nat) :=
  finditerAux re s 0 (s.length + 1)

/-- `re.search(regex, s)`: the span of the leftmost match, if any. -/
def reSearch (re : Re) (s : Chars) : Option (Nat × Nat) := (finditer re s).head?

/-- `s[a:b]` for `0 ≤ a ≤ b`. -/
def sliceOf (s : Chars) (a b : Nat) : Chars := (s.take b).drop a

/-- `str.strip()`: remove leading and trailing whitespace. -/
def pyStrip (s : Chars) : Chars :=
  ((s.dropWhile isSpacePy).reverse.dropWhile isSpacePy).reverse

/-- `citation.replace(c, '')` for a single-character needle: drop every
occurrence of `c`. -/
def pyReplaceDrop (a : Char) (cs : Chars) : Chars := cs.filter (fun c => !(c == a))

/-- `citation.replace(a, b)` for single characters: substitute every
occurrence of `a` by `b`. -/
def pyReplaceChar (a b : Char) (cs : Chars) : Chars :=
  cs.map (fun c => if c == a then b else c)

/-- `citation.replace('[', '').replace(']', '').replace(' ', '_')`
(line 125 of the source): the `doc_id` derivation. -/
def docIdOf (citation : Chars) : Chars :=
  pyReplaceChar ' ' '_' (pyReplaceDrop ']' (pyReplaceDrop '[' citation))

/-- Modelled from the spec: the `doc_id` derivation as §8 of the spec words
it for claim C1, namely the citation with the characters `[`, `]` and space
*removed*.  This definition exists only to be compared with `docIdOf`,
which is what the source actually computes. -/
def stripSpecRemoved (citation : Chars) : Chars :=
  citation.filter (fun c => !(c == '[' || c == ']' || c == ' '))

/-- `r'\[\d{4}\] NZSC \d+'` (line 98 of the source). -/
def citationRe : Re :=
  .seq (.cls (csF '['))
    (.seq (.cls Char.isDigit)
      (.seq (.cls Char.isDigit)
        (.seq (.cls Char.isDigit)
          (.seq (.cls Char.isDigit)
            (.seq (.cls (csF ']'))
              (.seq (lit csF " NZSC ".data)
                (.seq (.cls Char.isDigit) (.starG Char.isDigit))))))))

/-- Decimal digits of a natural number (fuel-structural so that the kernel
can evaluate it). -/
def natCharsAux : Nat → Nat → Chars → Chars
  | 0, _, acc => acc
  | fuel + 1, n, acc =>
    if n < 10 then Char.ofNat (48 + n % 10) :: acc
    else natCharsAux fuel (n / 10) (Char.ofNat (48 + n % 10) :: acc)

def natChars (n : Nat) : Chars := natCharsAux (n + 1) n []

/-- The placeholder citation `f"UNKNOWN_CITATION_{year}"` (line 99). -/
def UNKNOWN_CITATION (year : Nat) : Chars := "UNKNOWN_CITATION_".data ++ natChars year

/-- `range(2004, 2026)`. -/
def YEARS_TO_CRAWL : List Nat := List.range' 2004 22

/-- Lines 98–99: search the metadata text for the citation pattern and fall
back to the placeholder when absent. -/
def extractCitation (year : Nat) (meta : Chars) : Chars :=
  match reSearch citationRe meta with
  | some ab => sliceOf meta ab.1 ab.2
  | none => UNKNOWN_CITATION year

/-- One `proposition_data` record (lines 124–131). -/
structure PropositionMatch where
  doc_id : Chars
  title : Chars
  url : Chars
  proposition : Chars
  citation : Chars
  pattern_matched : String
deriving DecidableEq

/-- The pattern loop of lines 121–132: for every pattern, in `PATTERNS`
order, one record per `finditer` match on the document text. -/
def buildMatches (title url citation text : Chars) : List PropositionMatch :=
  PATTERNS.flatMap (fun nr =>
    (finditer nr.2 text).map (fun ab =>
      { doc_id := docIdOf citation
        title := title
        url := url
        proposition := pyStrip (sliceOf text ab.1 ab.2)
        citation := citation
        pattern_matched := nr.1 }))

/-- The data of one case once its PDF text has been fetched. -/
structure CaseInput where
  title : Chars
  url : Chars
  citation : Chars
  text : Chars
deriving DecidableEq

/-- Lines 117–132: an empty document text is skipped (`continue`) before the
pattern loop, so it contributes no records. -/
def caseRecords (c : CaseInput) : List PropositionMatch :=
  if c.text.isEmpty then [] else buildMatches c.title c.url c.citation c.text

/-- The accumulation of `all_propositions` over a sequence of cases. -/
def crawlCases : List CaseInput → List PropositionMatch
  | [] => []
  | c :: rest => caseRecords c ++ crawlCases rest

/-- The `AttributeError` raised by `None.find('a')`. -/
inductive PyExn where
  | attributeError
deriving DecidableEq

/-- An `<a>` tag inside the heading: its text and its `href`. -/
structure Anchor where
  text : Chars
  href : Chars
deriving DecidableEq

/-- A result row: `h3` is `result.find('h3')` (and, when present, carries
`h3.find('a')`); `metaData` is `result.find('p', class_='meta-data')` with
its text. -/
structure ResultRow where
  h3 : Option (Option Anchor)
  metaData : Option Chars
deriving DecidableEq

/-- The outcome of the guard at lines 88–93 for one row. -/
inductive RowStep where
  | skipped
  | proceed (title href metaText : Chars)
deriving DecidableEq

/-- Lines 89–93: `result.find('h3').find('a')` raises `AttributeError` when
there is no `h3` at all; otherwise a missing anchor or missing metadata
paragraph makes the row `skipped`, and a complete row proceeds. -/
def processRowHead (row : ResultRow) : Except PyExn RowStep :=
  match row.h3 with
  | none => .error .attributeError
  | some titleTag =>
    match titleTag, row.metaData with
    | some a, some m => .ok (.proceed a.text a.href m)
    | _, _ => .ok .skipped

/-- `page.extract_text()` may yield `None` or a string; both `None` and the
empty string are falsy in the `if text:` guard. -/
def pageTruthy : Option Chars → Bool
  | none => false
  | some t => !t.isEmpty

/-- Lines 54–60: accumulate `text + "\n"` for every page whose extracted
text is truthy. -/
def extract_text_from_pdf (pages : List (Option Chars)) : Chars :=
  pages.foldl (fun acc t => if pageTruthy t then acc ++ t.getD [] ++ ['\n'] else acc) []

/-- The column list of the exported table, in the key order of the
`proposition_data` dictionary. -/
def exportColumns : List String :=
  ["doc_id", "title", "url", "proposition", "citation", "pattern_matched"]

/-- One exported table row. -/
def rowOf (r : PropositionMatch) : List Chars :=
  [r.doc_id, r.title, r.url, r.proposition, r.citation, r.pattern_matched.data]

/-- The observable content of one written output file. -/
structure ExportedFile where
  header : List String
  rows : List (List Chars)
  indexColumn : Bool
deriving DecidableEq

/-- Lines 141–148: an empty collection writes no files; otherwise the CSV
and the XLSX file are written from the same `DataFrame`, rows in insertion
order, `index=False`. -/
def exportRun (ms : List PropositionMatch) : Option (ExportedFile × ExportedFile) :=
  if ms.isEmpty then none
  else some (⟨exportColumns, ms.map rowOf, false⟩, ⟨exportColumns, ms.map rowOf, false⟩)

/-- A concrete record produced from a placeholder citation, for the C6
witness. -/
def c6Rec : PropositionMatch :=
  { doc_id := "UNKNOWN_CITATION_2004".data
    title := "t".data
    url := "u".data
    proposition := "The leading case is X.".data
    citation := "UNKNOWN_CITATION_2004".data
    pattern_matched := "The leading case" }

/-- A sample record for the C8 witness. -/
def sampleRec : PropositionMatch :=
  { doc_id := "2019_NZSC_45".data
    title := "T".data
    url := "U".data
    proposition := "P".data
    citation := "[2019] NZSC 45".data
    pattern_matched := "The leading case" }

/-- A concrete record for the C10 witness. -/
def c10Rec : PropositionMatch :=
  { doc_id := "2019_NZSC_45".data
    title := "T".data
    url := "U".data
    proposition := "The leading case is X.".data
    citation := "[2019] NZSC 45".data
    pattern_matched := "The leading case" }

/- ### Helper lemmas about the doc_id derivation -/

lemma char_isDigit_ne (c : Char) (h : c.isDigit) : c ≠ '[' ∧ c ≠ ']' ∧ c ≠ ' ' := by
  refine ⟨?_, ?_, ?_⟩ <;> rintro rfl <;> exact absurd h (by decide)

lemma docIdOf_append (l₁ l₂ : Chars) :
    docIdOf (l₁ ++ l₂) = docIdOf l₁ ++ docIdOf l₂ := by
  simp [docIdOf, pyReplaceDrop, pyReplaceChar]

lemma docIdOf_digits (l : Chars) (h : ∀ c ∈ l, c.isDigit) : docIdOf l = l := by
  induction l with
  | nil => rfl
  | cons c cs ih =>
    obtain ⟨h1, h2, h3⟩ := char_isDigit_ne c (h c (List.mem_cons_self c cs))
    have ih' := ih (fun x hx => h x (List.mem_cons_of_mem c hx))
    have hstep : docIdOf (c :: cs) = c :: docIdOf cs := by
      simp only [docIdOf, pyReplaceDrop, pyReplaceChar, List.filter_cons]
      simp [h1, h2, h3]
    rw [hstep, ih']

lemma mem_docIdOf (x : Char) (cit : Chars) (h : x ∈ docIdOf cit) :
    x ≠ '[' ∧ x ≠ ']' ∧ x ≠ ' ' := by
  simp only [docIdOf, pyReplaceChar, pyReplaceDrop, List.mem_map, List.mem_filter] at h
  obtain ⟨a, ⟨⟨-, h1⟩, h2⟩, hx⟩ := h
  cases hab : a == ' ' with
  | true =>
    simp only [hab, Bool.true_eq_false, if_true, if_false, reduceIte] at hx
    subst hx
    decide
  | false =>
    simp only [hab, Bool.false_eq_true, if_true, if_false, reduceIte] at hx
    subst hx
    refine ⟨?_, ?_, ?_⟩ <;> rintro rfl <;> simp_all

lemma doc_id_of_mem_buildMatches (title url citation text : Chars) :
    ∀ rec ∈ buildMatches title url citation text, rec.doc_id = docIdOf citation := by
  intro rec hrec
  simp only [buildMatches, List.mem_flatMap, List.mem_map] at hrec
  obtain ⟨nr, -, ab, -, rfl⟩ := hrec
  rfl

/- ### Claim C1 -/

/-- Claim C1, counterexample: the source derives `doc_id` by *replacing*
spaces with underscores, not by *removing* them; on `[2019] NZSC 45` the
source yields `2019_NZSC_45` while removal of `[`, `]` and spaces would
yield `2019NZSC45`, so the claim's general rule contradicts the code (and
the claim's own example). -/
theorem c1_counterexample :
    docIdOf "[2019] NZSC 45".data = "2019_NZSC_45".data ∧
    stripSpecRemoved "[2019] NZSC 45".data = "2019NZSC45".data ∧
    docIdOf "[2019] NZSC 45".data ≠ stripSpecRemoved "[2019] NZSC 45".data := by
  refine ⟨by decide, by decide, by decide⟩

/-- Claim C1, amended: for every citation of the format `[YYYY] NZSC N`
(four digits, then the fixed court abbreviation, then a digit string), the
derived `doc_id` equals the citation with `[` and `]` removed and every
space replaced by `_`; in particular `[2019] NZSC 45` yields
`2019_NZSC_45`. -/
theorem c1_amended_theorem (y n : Chars) (hy : ∀ c ∈ y, c.isDigit)
    (hn : ∀ c ∈ n, c.isDigit) (_hylen : y.length = 4) :
    docIdOf ("[".data ++ y ++ "] NZSC ".data ++ n) = y ++ "_NZSC_".data ++ n := by
  rw [docIdOf_append, docIdOf_append, docIdOf_append,
    docIdOf_digits y hy, docIdOf_digits n hn]
  have e1 : docIdOf "[".data = [] := by decide
  have e2 : docIdOf "] NZSC ".data = "_NZSC_".data := by decide
  rw [e1, e2]
  rfl

/-- Claim C1, witness: the amended rule evaluated on `[2019] NZSC 45`. -/
theorem c1_amended_witness :
    docIdOf ("[".data ++ "2019".data ++ "] NZSC ".data ++ "45".data)
      = "2019".data ++ "_NZSC_".data ++ "45".data :=
  c1_amended_theorem "2019".data "45".data (by decide) (by decide) (by decide)

/- ### Claim C2 -/

/-- Claim C2: the pattern "The applicable test is" (whose `(i)` group is
not a case-insensitivity flag) finds nothing in a text carrying its phrase
only in upper case, while each of the other five patterns does match its
phrase in upper case. -/
theorem c2_theorem :
    finditer reApplicableTest "THE APPLICABLE TEST IS MET.".data = [] ∧
    finditer reQuestion "THE QUESTION IS WHETHER X.".data = [(0, 26)] ∧
    finditer reLeadingCase "THE LEADING CASE IS X.".data = [(0, 22)] ∧
    finditer reLeadingAuthority "THE LEADING AUTHORITY IS X.".data = [(0, 27)] ∧
    finditer reIssueHere "THE ISSUE HERE IS WHETHER X.".data = [(0, 28)] ∧
    finditer reApplicableThreshold "THE APPLICABLE THRESHOLD IS MET.".data = [(0, 32)] := by
  exact ⟨by decide, by decide, by decide, by decide, by decide, by decide⟩

/- ### Claim C3 -/

/-- Claim C3, counterexample: a row with a metadata paragraph but no `h3`
heading at all makes `result.find('h3').find('a')` raise `AttributeError`
instead of being skipped. -/
theorem c3_counterexample :
    processRowHead ⟨none, some "meta".data⟩ = .error .attributeError := rfl

/-- Claim C3, amended: a result row whose `h3` heading is present is
skipped without an exception when the heading contains no link or the
metadata paragraph is missing (a row with no `h3` element at all instead
raises `AttributeError`, per the counterexample). -/
theorem c3_amended_theorem (row : ResultRow) (tag : Option Anchor)
    (h : row.h3 = some tag) (hmiss : tag = none ∨ row.metaData = none) :
    processRowHead row = .ok .skipped := by
  obtain ⟨h3f, mdf⟩ := row
  simp only at h
  subst h
  rcases hmiss with rfl | hmd
  · cases mdf <;> rfl
  · simp only at hmd
    subst hmd
    cases tag <;> rfl

/-- Claim C3, witness: a row with an `h3` but no anchor inside is skipped. -/
theorem c3_amended_witness :
    processRowHead ⟨some none, some "meta".data⟩ = .ok .skipped :=
  c3_amended_theorem ⟨some none, some "meta".data⟩ none rfl (Or.inl rfl)

/- ### Claim C6 -/

/-- Claim C6: when the metadata text has no substring matching
`[YYYY] NZSC N`, the citation becomes the placeholder
`UNKNOWN_CITATION_<year>`, the stripping rule is the identity on that
placeholder, and every match record built for the case carries the
placeholder unchanged as its `doc_id`. -/
theorem c6_theorem (year : Nat) (meta title url text : Chars)
    (hy : year ∈ YEARS_TO_CRAWL) (hm : reSearch citationRe meta = none) :
    extractCitation year meta = UNKNOWN_CITATION year ∧
    docIdOf (UNKNOWN_CITATION year) = UNKNOWN_CITATION year ∧
    ∀ rec ∈ buildMatches title url (extractCitation year meta) text,
      rec.doc_id = UNKNOWN_CITATION year := by
  have h1 : extractCitation year meta = UNKNOWN_CITATION year := by
    simp [extractCitation, hm]
  have h2 : docIdOf (UNKNOWN_CITATION year) = UNKNOWN_CITATION year :=
    (by decide :
      ∀ y ∈ YEARS_TO_CRAWL, docIdOf (UNKNOWN_CITATION y) = UNKNOWN_CITATION y) year hy
  refine ⟨h1, h2, ?_⟩
  intro rec hrec
  rw [doc_id_of_mem_buildMatches _ _ _ _ rec hrec, h1, h2]


/-- Claim C6, witness: year 2004 with metadata text `no citation here`. -/
theorem c6_witness :
    extractCitation 2004 "no citation here".data = UNKNOWN_CITATION 2004 ∧
    docIdOf (UNKNOWN_CITATION 2004) = UNKNOWN_CITATION 2004 ∧
    c6Rec.doc_id = UNKNOWN_CITATION 2004 := by
  obtain ⟨h1, h2, h3⟩ := c6_theorem 2004 "no citation here".data "t".data "u".data
    "The leading case is X.".data (by decide) (by decide)
  exact ⟨h1, h2, h3 c6Rec (by decide)⟩

/- ### Claim C7 -/

/-- Claim C7: a case whose PDF text extraction yields the empty string
contributes zero records, and the crawl over the remaining cases is
unaffected (the loop continues, it does not abort). -/
theorem c7_theorem (c : CaseInput) (cs : List CaseInput) (h : c.text = []) :
    caseRecords c = [] ∧ crawlCases (c :: cs) = crawlCases cs := by
  have h1 : caseRecords c = [] := by simp [caseRecords, h]
  exact ⟨h1, by simp [crawlCases, h1]⟩

/-- Claim C7, witness: a concrete case with empty text inside a two-case
crawl. -/
theorem c7_witness :
    caseRecords ⟨"T".data, "U".data, "[2019] NZSC 1".data, []⟩ = [] ∧
    crawlCases [⟨"T".data, "U".data, "[2019] NZSC 1".data, []⟩] = crawlCases [] :=
  c7_theorem ⟨"T".data, "U".data, "[2019] NZSC 1".data, []⟩ [] rfl

/- ### Claim C8 -/

/-- Claim C8: an empty accumulated collection writes neither output file
(and `exportRun` is a total function, so this is reported, not raised);
otherwise both files are written from the single table whose columns are
{doc_id, title, url, proposition, citation, pattern_matched} in that
order, whose rows are the records in insertion order, and which omits the
row-index column. -/
theorem c8_theorem (ms : List PropositionMatch) :
    (ms = [] → exportRun ms = none) ∧
    (ms ≠ [] →
      exportRun ms = some (⟨exportColumns, ms.map rowOf, false⟩,
        ⟨exportColumns, ms.map rowOf, false⟩)) := by
  constructor
  · intro h
    simp [exportRun, h]
  · intro h
    simp [exportRun, h]


/-- Claim C8, witness: the empty run writes nothing; a one-record run
writes the two files from the one-row table. -/
theorem c8_witness :
    exportRun [] = none ∧
    exportRun [sampleRec] = some (⟨exportColumns, [sampleRec].map rowOf, false⟩,
      ⟨exportColumns, [sampleRec].map rowOf, false⟩) :=
  ⟨(c8_theorem []).1 rfl, (c8_theorem [sampleRec]).2 (by simp)⟩

/- ### Claim C9 -/

/-- Claim C9, counterexample: a single-page PDF whose page yields the text
`t` extracts to `t\n` (the source appends a newline after every non-empty
page, including the last), not to `t` as the claim states. -/
theorem c9_counterexample :
    extract_text_from_pdf [some "t".data] = "t\n".data ∧
    extract_text_from_pdf [some "t".data] ≠ "t".data := by
  refine ⟨by decide, by decide⟩

/-- Accumulator lemma for the page fold of `extract_text_from_pdf`. -/
lemma extract_foldl_acc (pages : List (Option Chars)) (acc : Chars) :
    pages.foldl (fun a t => if pageTruthy t then a ++ t.getD [] ++ ['\n'] else a) acc
      = acc ++ pages.foldl (fun a t => if pageTruthy t then a ++ t.getD [] ++ ['\n'] else a) [] := by
  induction pages generalizing acc with
  | nil => simp
  | cons t ps ih =>
    simp only [List.foldl_cons]
    rw [ih, ih (if pageTruthy t then [] ++ t.getD [] ++ ['\n'] else [])]
    by_cases h : pageTruthy t <;> simp [h]

/-- Claim C9, amended: the extracted full text is the concatenation of the
truthy (non-empty) page texts, each one followed by a newline — pages
yielding no text contribute nothing; in particular a single page with text
`t` yields `t\n`. -/
theorem c9_amended_theorem (pages : List (Option Chars)) :
    extract_text_from_pdf pages
      = (pages.filter pageTruthy).foldr (fun t acc => t.getD [] ++ '\n' :: acc) [] ∧
    extract_text_from_pdf [some "t".data] = "t\n".data := by
  refine ⟨?_, by decide⟩
  induction pages with
  | nil => rfl
  | cons t ps ih =>
    rw [extract_text_from_pdf, List.foldl_cons, extract_foldl_acc, List.filter_cons]
    by_cases h : pageTruthy t
    · simp only [h, if_true, List.foldr_cons]
      rw [← extract_text_from_pdf, ih]
      simp
    · simp only [h, if_false]
      rw [← extract_text_from_pdf, ih]
      simp [h]

/- ### Claim C10 -/

/-- Claim C10: every record ever built for the accumulated collection has
a `doc_id` free of `[`, `]` and space characters, whatever citation string
(parsed or placeholder) it was derived from. -/
theorem c10_theorem (title url citation text : Chars) :
    ∀ rec ∈ buildMatches title url citation text,
      '[' ∉ rec.doc_id ∧ ']' ∉ rec.doc_id ∧ ' ' ∉ rec.doc_id := by
  intro rec hrec
  rw [doc_id_of_mem_buildMatches _ _ _ _ rec hrec]
  refine ⟨fun hm => ?_, fun hm => ?_, fun hm => ?_⟩
  · exact (mem_docIdOf _ _ hm).1 rfl
  · exact (mem_docIdOf _ _ hm).2.1 rfl
  · exact (mem_docIdOf _ _ hm).2.2 rfl


/-- Claim C10, witness: the record built from citation `[2019] NZSC 45`
and text `The leading case is X.` has a clean `doc_id`. -/
theorem c10_witness :
    '[' ∉ c10Rec.doc_id ∧ ']' ∉ c10Rec.doc_id ∧ ' ' ∉ c10Rec.doc_id :=
  c10_theorem "T".data "U".data "[2019] NZSC 45".data "The leading case is X.".data
    c10Rec (by decide)

/- ### Generic lemmas about the matching engine -/

lemma takeWhileLen_all (p : Char → Bool) (s : Chars) (h : ∀ c ∈ s, p c) :
    takeWhileLen p s = s.length := by
  induction s with
  | nil => rfl
  | cons c cs ih =>
    simp [takeWhileLen, h c (List.mem_cons_self c cs),
      ih (fun x hx => h x (List.mem_cons_of_mem c hx))]

lemma runs_starG_mem (p : Char → Bool) (s : Chars) :
    ∀ t ∈ runs (.starG p) s, ∃ j, j ≤ takeWhileLen p s ∧ t = s.drop j := by
  intro t ht
  simp only [runs, List.mem_map, List.mem_range] at ht
  obtain ⟨i, _, rfl⟩ := ht
  exact ⟨takeWhileLen p s - i, Nat.sub_le _ _, rfl⟩

lemma drop_mem_runs_starG (p : Char → Bool) (s : Chars) (j : Nat)
    (hj : j ≤ takeWhileLen p s) : s.drop j ∈ runs (.starG p) s := by
  simp only [runs, List.mem_map, List.mem_range]
  exact ⟨takeWhileLen p s - j, by omega, by congr 1; omega⟩

lemma head?_runs_starG (p : Char → Bool) (s : Chars) :
    (runs (.starG p) s).head? = some (s.drop (takeWhileLen p s)) := by
  simp only [runs]
  rw [List.range_succ_eq_map]
  simp

lemma runs_starG_ne_nil (p : Char → Bool) (s : Chars) : runs (.starG p) s ≠ [] := by
  simp [runs, List.range_succ_eq_map]

lemma runs_starG_head_all (p : Char → Bool) (u : Chars) (hall : ∀ c ∈ u, p c) :
    (runs (.starG p) u).head? = some [] := by
  rw [head?_runs_starG, takeWhileLen_all p u hall, List.drop_length]

lemma runs_lit (f : Char → Char → Bool) (phrase : Chars) :
    ∀ t, runs (lit f phrase) t
      = if litTakes f phrase t then [t.drop phrase.length] else [] := by
  induction phrase with
  | nil =>
    intro t
    simp [lit, runs, litTakes]
  | cons c cs ih =>
    intro t
    cases t with
    | nil => simp [lit, runs, litTakes]
    | cons x xs =>
      by_cases hfx : f c x = true
      · simp only [lit, runs, litTakes, hfx, if_true, Bool.true_and, reduceIte,
          List.flatMap_cons, List.flatMap_nil, List.append_nil]
        rw [ih xs]
        by_cases hlt : litTakes f cs xs <;> simp [hlt]
      · rw [Bool.not_eq_true] at hfx
        simp [lit, runs, litTakes, hfx]

lemma litTakes_append (f : Char → Char → Bool) (phrase : Chars) :
    ∀ t v, litTakes f phrase t → litTakes f phrase (t ++ v) := by
  induction phrase with
  | nil => intro t v _; rfl
  | cons c cs ih =>
    intro t v h
    cases t with
    | nil => exact absurd h (by simp [litTakes])
    | cons x xs =>
      simp only [litTakes, Bool.and_eq_true] at h ⊢
      exact ⟨h.1, ih xs v h.2⟩

lemma litTakes_length (f : Char → Char → Bool) (phrase : Chars) :
    ∀ t, litTakes f phrase t → phrase.length ≤ t.length := by
  induction phrase with
  | nil => intro t _; simp
  | cons c cs ih =>
    intro t h
    cases t with
    | nil => exact absurd h (by simp [litTakes])
    | cons x xs =>
      simp only [litTakes, Bool.and_eq_true] at h
      simpa using ih xs h.2

lemma head?_flatMap_prop {α β : Type _} (l : List α) (g : α → List β) (Q : β → Prop)
    (h : ∀ y ∈ l, g y = [] ∨ ∃ t, (g y).head? = some t ∧ Q t) :
    ∀ t, ((l.flatMap g).head? = some t) → Q t := by
  induction l with
  | nil =>
    intro t ht
    simp at ht
  | cons y ys ih =>
    intro t ht
    rcases h y (List.mem_cons_self y ys) with hy | ⟨t', ht', hq⟩
    · rw [List.flatMap_cons, hy, List.nil_append] at ht
      exact ih (fun z hz => h z (List.mem_cons_of_mem y hz)) t ht
    · rw [List.flatMap_cons] at ht
      cases hgy : g y with
      | nil => rw [hgy] at ht'; simp at ht'
      | cons b bs =>
        rw [hgy] at ht ht'
        simp only [List.cons_append, List.head?_cons, Option.some.injEq] at ht ht'
        rw [← ht]
        exact ht'.symm ▸ hq

lemma head?_flatMap_const {α β : Type _} (l : List α) (g : α → List β) (b : β)
    (h : ∀ y ∈ l, g y = [] ∨ (g y).head? = some b)
    (hne : ∃ y ∈ l, g y ≠ []) :
    (l.flatMap g).head? = some b := by
  induction l with
  | nil => simp at hne
  | cons y ys ih =>
    cases hgy : g y with
    | nil =>
      rw [List.flatMap_cons, hgy, List.nil_append]
      apply ih (fun z hz => h z (List.mem_cons_of_mem y hz))
      obtain ⟨z, hz, hgz⟩ := hne
      rcases List.mem_cons.mp hz with rfl | hz'
      · exact absurd hgy hgz
      · exact ⟨z, hz', hgz⟩
    | cons c cs =>
      rcases h y (List.mem_cons_self y ys) with h0 | hh
      · rw [hgy] at h0; cases h0
      · rw [List.flatMap_cons, hgy]
        rw [hgy] at hh
        simpa using hh

lemma runs_seq (r₁ r₂ : Re) (s : Chars) :
    runs (.seq r₁ r₂) s = (runs r₁ s).flatMap (fun t => runs r₂ t) := rfl

lemma finditerAux_succ (re : Re) (s : Chars) (pos fuel : Nat) :
    finditerAux re s pos (fuel + 1)
      = match firstMatchLen re (s.drop pos) with
        | some n =>
          (pos, pos + n) :: finditerAux re s (if n = 0 then pos + 1 else pos + n) fuel
        | none => if pos < s.length then finditerAux re s (pos + 1) fuel else [] := rfl

lemma finditerAux_step_some (re : Re) (s : Chars) (pos fuel n : Nat)
    (h : firstMatchLen re (s.drop pos) = some n) :
    finditerAux re s pos (fuel + 1)
      = (pos, pos + n) :: finditerAux re s (if n = 0 then pos + 1 else pos + n) fuel := by
  rw [finditerAux_succ, h]

lemma finditerAux_step_none (re : Re) (s : Chars) (pos fuel : Nat)
    (h : firstMatchLen re (s.drop pos) = none) :
    finditerAux re s pos (fuel + 1)
      = if pos < s.length then finditerAux re s (pos + 1) fuel else [] := by
  rw [finditerAux_succ, h]

lemma firstMatchLen_of_head (re : Re) (s t : Chars)
    (h : (runs re s).head? = some t) :
    firstMatchLen re s = some (s.length - t.length) := by
  unfold firstMatchLen
  cases hr : runs re s with
  | nil => rw [hr] at h; simp at h
  | cons a as =>
    rw [hr] at h
    simp only [List.head?_cons, Option.some.injEq] at h
    rw [h]

/- ### Claim C4 -/

/-- For a newline-free text in which the phrase occurs (case-insensitively)
somewhere, the whole-line pattern `[^\n]*phrase[^\n]*` commits to a match
whose remainder is empty, i.e. the match runs to the end of the text. -/
lemma runs_lineRe_head (f : Char → Char → Bool) (phrase s : Chars)
    (hnl : ∀ c ∈ s, pNotNl c)
    (hocc : ∃ i, i ≤ s.length ∧ litTakes f phrase (s.drop i)) :
    (runs (lineRe f phrase) s).head? = some [] := by
  have hTW : takeWhileLen pNotNl s = s.length := takeWhileLen_all _ _ hnl
  rw [lineRe, runs_seq]
  apply head?_flatMap_const
  · intro y hy
    obtain ⟨j, _, rfl⟩ := runs_starG_mem _ _ y hy
    rw [runs_seq, runs_lit]
    by_cases hlt : litTakes f phrase (s.drop j)
    · right
      rw [if_pos hlt]
      simp only [List.flatMap_cons, List.flatMap_nil, List.append_nil]
      exact runs_starG_head_all pNotNl _
        (fun c hc => hnl c (List.drop_subset _ _ (List.drop_subset _ _ hc)))
    · left
      rw [if_neg hlt]
      rfl
  · obtain ⟨i, hi, hlt⟩ := hocc
    refine ⟨s.drop i, drop_mem_runs_starG pNotNl s i (by rw [hTW]; exact hi), ?_⟩
    rw [runs_seq, runs_lit, if_pos hlt]
    simp only [List.flatMap_cons, List.flatMap_nil, List.append_nil]
    exact runs_starG_ne_nil pNotNl _

/-- Claim C4: a document that is a single sentence on a single line, ends in
a sentence-terminal mark, and contains the phrase "the leading case"
(case-insensitively, witnessed by a split `s = u ++ v` with the phrase at
the front of `v`) yields exactly one match for the pattern
"The leading case", spanning the whole line, whose proposition is the line
trimmed of leading and trailing whitespace. -/
theorem c4_theorem (u v : Chars)
    (hnl : '\n' ∉ u ++ v)
    (hlt : litTakes ciF "The leading case".data v)
    (_hone : ∃ b t, u ++ v = b ++ [t] ∧ pTerm t ∧ ∀ c ∈ b, pTerm c = false) :
    finditer reLeadingCase (u ++ v) = [(0, (u ++ v).length)] ∧
    (finditer reLeadingCase (u ++ v)).map
        (fun ab => pyStrip (sliceOf (u ++ v) ab.1 ab.2))
      = [pyStrip (u ++ v)] := by
  have hnl' : ∀ c ∈ u ++ v, pNotNl c := by
    intro c hc
    simp only [pNotNl, Bool.not_eq_true']
    exact beq_eq_false_iff_ne.mpr (fun h => hnl (h ▸ hc))
  have hhead : (runs reLeadingCase (u ++ v)).head? = some [] := by
    apply runs_lineRe_head ciF _ _ hnl'
    exact ⟨u.length, by simp, by rw [List.drop_left]; exact hlt⟩
  have hfm : firstMatchLen reLeadingCase (u ++ v) = some (u ++ v).length := by
    have h0 := firstMatchLen_of_head _ _ _ hhead
    simpa using h0
  have hlen : 16 ≤ (u ++ v).length := by
    have h16 := litTakes_length ciF _ _ hlt
    simp only [List.length_append]
    have : ("The leading case".data).length = 16 := by decide
    omega
  have hfin : finditer reLeadingCase (u ++ v) = [(0, (u ++ v).length)] := by
    rw [finditer]
    obtain ⟨k, hk⟩ : ∃ k, (u ++ v).length = k + 1 := ⟨(u ++ v).length - 1, by omega⟩
    rw [hk]
    rw [finditerAux_step_some _ _ _ _ (k + 1) (by simpa using hk ▸ hfm)]
    have hL0 : ¬(k + 1 = 0) := by omega
    rw [if_neg hL0]
    simp only [Nat.zero_add]
    have htail : finditerAux reLeadingCase (u ++ v) (k + 1) (k + 1) = [] := by
      obtain ⟨k', hk'⟩ : ∃ k', k + 1 = k' + 1 := ⟨k, rfl⟩
      rw [hk']
      rw [finditerAux_step_none]
      · rw [if_neg (by omega)]
      · rw [← hk', ← hk, List.drop_length]
        decide
    rw [htail]
  refine ⟨hfin, ?_⟩
  rw [hfin]
  simp only [List.map_cons, List.map_nil]
  rw [show sliceOf (u ++ v) 0 (u ++ v).length = u ++ v by
    simp [sliceOf]]

/-- Claim C4, witness: the single-sentence document
`In this area the leading case is Smith v Jones.`. -/
theorem c4_witness :
    finditer reLeadingCase
        ("In this area ".data ++ "the leading case is Smith v Jones.".data)
      = [(0, ("In this area ".data ++ "the leading case is Smith v Jones.".data).length)] ∧
    (finditer reLeadingCase
        ("In this area ".data ++ "the leading case is Smith v Jones.".data)).map
        (fun ab => pyStrip (sliceOf
          ("In this area ".data ++ "the leading case is Smith v Jones.".data) ab.1 ab.2))
      = [pyStrip ("In this area ".data ++ "the leading case is Smith v Jones.".data)] :=
  c4_theorem "In this area ".data "the leading case is Smith v Jones.".data
    (by decide) (by decide)
    ⟨"In this area the leading case is Smith v Jones".data, '.', by decide, by decide,
      by decide⟩

/- ### Claim C5 -/

lemma runs_starL_cons (p : Char → Bool) (c : Char) (w : Chars) :
    runs (.starL p) (c :: w)
      = (c :: w) :: (if p c then runs (.starL p) w else []) := by
  by_cases hp : p c = true
  · simp only [runs, takeWhileLen, hp, if_true, reduceIte]
    rw [List.range_succ_eq_map]
    simp [List.map_map, Function.comp_def]
  · rw [Bool.not_eq_true] at hp
    have h1 : List.range 1 = [0] := rfl
    simp [runs, takeWhileLen, hp, h1]

lemma runs_reQLazy_cons (c : Char) (w : Chars) :
    runs reQLazy (c :: w)
      = runs reQTail (c :: w) ++ (if pNotNl c then runs reQLazy w else []) := by
  rw [reQLazy, runs_seq, runs_starL_cons]
  by_cases hp : pNotNl c = true
  · rw [if_pos hp, if_pos hp, List.flatMap_cons]
    rfl
  · rw [if_neg hp, if_neg hp, List.flatMap_cons, List.flatMap_nil]

lemma runs_look (r : Re) (s : Chars) :
    runs (.look r) s = if (runs r s).isEmpty then [] else [s] := rfl

lemma runs_reQTail_mem (c : Char) (w : Chars) :
    ∀ t ∈ runs reQTail (c :: w), t = w := by
  intro t ht
  rw [reQTail, runs_seq, List.mem_flatMap] at ht
  obtain ⟨y, hy, hty⟩ := ht
  by_cases hc : pTerm c = true
  · have hyw : y = w := by simpa [runs, hc] using hy
    subst hyw
    rw [reQLook, runs_look] at hty
    by_cases hE : (runs (.alt (.cls isSpacePy) .dollar) y).isEmpty = true
    · rw [if_pos hE] at hty
      simp at hty
    · rw [if_neg hE] at hty
      simpa using hty
  · simp [runs, hc] at hy

/-- When the lazy continuation `.*?[\.!?](?=\s|$)` is run on `z ++ '.' :: v`
with the period's lookahead satisfied (`v` empty or starting in
whitespace), the match the engine commits to ends no later than that
period: the remainder it keeps is at least as long as `v`. -/
lemma runs_reQLazy_bound (v : Chars)
    (hv : v = [] ∨ ∃ c w, v = c :: w ∧ isSpacePy c) :
    ∀ z, runs reQLazy (z ++ '.' :: v) = []
      ∨ ∃ t, (runs reQLazy (z ++ '.' :: v)).head? = some t ∧ v.length ≤ t.length := by
  intro z
  induction z with
  | nil =>
    right
    refine ⟨v, ?_, le_refl _⟩
    rw [List.nil_append, runs_reQLazy_cons]
    have h1 : runs reQTail ('.' :: v) = [v] := by
      rw [reQTail, runs_seq]
      have h2 : runs (.cls pTerm) ('.' :: v) = [v] := by simp [runs, pTerm]
      rw [h2, List.flatMap_cons, List.flatMap_nil, List.append_nil, reQLook]
      rcases hv with rfl | ⟨c, w, rfl, hc⟩
      · simp [runs]
      · simp [runs, hc]
    rw [h1]
    simp
  | cons c z' ih =>
    rw [List.cons_append, runs_reQLazy_cons]
    cases hb : runs reQTail (c :: (z' ++ '.' :: v)) with
    | cons d ds =>
      right
      have hd : d = z' ++ '.' :: v :=
        runs_reQTail_mem _ _ d (by rw [hb]; exact List.mem_cons_self _ _)
      refine ⟨d, by simp, ?_⟩
      rw [hd]
      simp
      omega
    | nil =>
      rw [List.nil_append]
      by_cases hp : pNotNl c = true
      · rw [if_pos hp]
        exact ih
      · rw [if_neg hp]
        left
        rfl

lemma mem_take_takeWhileLen (p : Char → Bool) :
    ∀ (w : Chars) (j : Nat), j ≤ takeWhileLen p w → ∀ x ∈ w.take j, p x := by
  intro w
  induction w with
  | nil => simp
  | cons c cs ih =>
    intro j hj x hx
    cases j with
    | zero => simp at hx
    | succ j' =>
      by_cases hc : p c = true
      · rw [List.take_succ_cons] at hx
        rcases List.mem_cons.mp hx with rfl | hx'
        · exact hc
        · refine ih j' ?_ x hx'
          rw [takeWhileLen, if_pos hc] at hj
          omega
      · rw [Bool.not_eq_true] at hc
        rw [takeWhileLen, if_neg (by simp [hc])] at hj
        omega

/-- One preamble iteration `(?:[^\n.!?]*[\s\n])` consumes only characters
different from `.` (the starred class excludes `.` and the separator is
whitespace). -/
lemma runs_reQIter_consumed (w : Chars) :
    ∀ t ∈ runs reQIter w, ∃ w₀, w = w₀ ++ t ∧ ∀ c ∈ w₀, c ≠ '.' := by
  intro t ht
  rw [reQIter, runs_seq, List.mem_flatMap] at ht
  obtain ⟨y, hy, hty⟩ := ht
  obtain ⟨j, hj, rfl⟩ := runs_starG_mem _ _ y hy
  cases hdj : w.drop j with
  | nil => rw [hdj] at hty; simp [runs] at hty
  | cons c cs =>
    rw [hdj] at hty
    by_cases hc : pSpaceNl c = true
    · have ht' : t = cs := by simpa [runs, hc] using hty
      subst ht'
      refine ⟨w.take j ++ [c], ?_, ?_⟩
      · rw [List.append_assoc, List.singleton_append, ← hdj, List.take_append_drop]
      · intro x hx
        rcases List.mem_append.mp hx with hx1 | hx2
        · have hpk := mem_take_takeWhileLen pKeep w j hj x hx1
          intro hxq
          rw [hxq] at hpk
          exact absurd hpk (by decide)
        · have hxc : x = c := by simpa using hx2
          subst hxc
          intro hxq
          rw [hxq] at hc
          exact absurd hc (by decide)
    · simp [runs, hc] at hty

lemma runs_repAtMost_eq (r : Re) (n : Nat) (w : Chars) :
    runs (.repAtMost r (n + 1)) w
      = (runs r w).flatMap (fun t => runs (.repAtMost r n) t) ++ [w] := rfl

lemma runs_repAtMost_zero (r : Re) (w : Chars) :
    runs (.repAtMost r 0) w = [w] := rfl

/-- The whole clause preamble `(?:[^\n.!?]*[\s\n]){0,50}` consumes only
characters different from `.`. -/
lemma runs_reQPre_consumed :
    ∀ (n : Nat) (w : Chars), ∀ t ∈ runs (.repAtMost reQIter n) w,
      ∃ w₀, w = w₀ ++ t ∧ ∀ c ∈ w₀, c ≠ '.' := by
  intro n
  induction n with
  | zero =>
    intro w t ht
    rw [runs_repAtMost_zero] at ht
    have : t = w := by simpa using ht
    exact ⟨[], by simp [this], by simp⟩
  | succ n ih =>
    intro w t ht
    rw [runs_repAtMost_eq] at ht
    rcases List.mem_append.mp ht with h1 | h2
    · obtain ⟨y, hy, hty⟩ := List.mem_flatMap.mp h1
      obtain ⟨w₀, rfl, hw₀⟩ := runs_reQIter_consumed w y hy
      obtain ⟨w₁, rfl, hw₁⟩ := ih y t hty
      exact ⟨w₀ ++ w₁, by simp [List.append_assoc], fun c hc =>
        (List.mem_append.mp hc).elim (hw₀ c) (hw₁ c)⟩
    · have : t = w := by simpa using h2
      exact ⟨[], by simp [this], by simp⟩

/-- Splitting `a ++ c :: v = w₀ ++ t` where `c` does not occur in `w₀`
forces the split to happen inside `a`. -/
lemma eq_append_cons_no_c (c : Char) :
    ∀ (w₀ a t v : Chars), a ++ c :: v = w₀ ++ t → (∀ x ∈ w₀, x ≠ c) →
      w₀.length ≤ a.length ∧ t = a.drop w₀.length ++ c :: v := by
  intro w₀
  induction w₀ with
  | nil =>
    intro a t v h _
    simp only [List.nil_append] at h
    simp [← h]
  | cons x w' ih =>
    intro a t v h hx
    cases a with
    | nil =>
      simp only [List.nil_append, List.cons_append] at h
      have hxc : x = c := by
        have := congrArg List.head? h
        simpa using this.symm
      exact absurd hxc (hx x (List.mem_cons_self _ _))
    | cons b a' =>
      simp only [List.cons_append, List.cons.injEq] at h
      obtain ⟨rfl, h2⟩ := h
      obtain ⟨hl, ht⟩ := ih a' t v h2 (fun z hz => hx z (List.mem_cons_of_mem _ hz))
      constructor
      · simpa using Nat.succ_le_succ hl
      · simpa using ht

/-- A pattern word none of whose characters matches `d` cannot match across
an occurrence of `d` closer than its own length. -/
lemma litTakes_dot_false (f : Char → Char → Bool) (P : Chars) (d : Char)
    (hP : ∀ q ∈ P, f q d = false) :
    ∀ y v, y.length < P.length → litTakes f P (y ++ d :: v) = false := by
  induction P with
  | nil =>
    intro y v h
    simp at h
  | cons p ps ih =>
    intro y v hlen
    cases y with
    | nil =>
      have h0 := hP p (List.mem_cons_self _ _)
      simp [litTakes, h0]
    | cons a y' =>
      simp only [List.cons_append, litTakes]
      have hr := ih (fun q hq => hP q (List.mem_cons_of_mem _ hq)) y' v (by simpa using hlen)
      simp [hr]

lemma runsRep_length_le (f : Chars → List Chars)
    (hf : ∀ s t, t ∈ f s → t.length ≤ s.length) :
    ∀ (n : Nat) (s : Chars), ∀ t ∈ runsRep f n s, t.length ≤ s.length := by
  intro n
  induction n with
  | zero =>
    intro s t ht
    have : t = s := by simpa [runsRep] using ht
    simp [this]
  | succ n ih =>
    intro s t ht
    simp only [runsRep] at ht
    rcases List.mem_append.mp ht with h | h
    · obtain ⟨y, hy, hty⟩ := List.mem_flatMap.mp h
      exact le_trans (ih y t hty) (hf s y hy)
    · have : t = s := by simpa using h
      simp [this]

lemma runs_length_le (re : Re) : ∀ s, ∀ t ∈ runs re s, t.length ≤ s.length := by
  induction re with
  | eps =>
    intro s t ht
    have : t = s := by simpa [runs] using ht
    simp [this]
  | cls p =>
    intro s t ht
    cases s with
    | nil => simp [runs] at ht
    | cons c cs =>
      by_cases hc : p c = true
      · have : t = cs := by simpa [runs, hc] using ht
        simp [this]
      · simp [runs, hc] at ht
  | seq r₁ r₂ ih₁ ih₂ =>
    intro s t ht
    rw [runs_seq, List.mem_flatMap] at ht
    obtain ⟨y, hy, hty⟩ := ht
    exact le_trans (ih₂ y t hty) (ih₁ s y hy)
  | alt r₁ r₂ ih₁ ih₂ =>
    intro s t ht
    rcases List.mem_append.mp ht with h | h
    exacts [ih₁ s t h, ih₂ s t h]
  | starG p =>
    intro s t ht
    obtain ⟨j, _, rfl⟩ := runs_starG_mem p s t ht
    simp
  | starL p =>
    intro s t ht
    simp only [runs, List.mem_map, List.mem_range] at ht
    obtain ⟨i, _, rfl⟩ := ht
    simp
  | repAtMost r n ih =>
    intro s t ht
    exact runsRep_length_le _ (fun s' t' h => ih s' t' h) n s t ht
  | look r _ =>
    intro s t ht
    rw [runs_look] at ht
    by_cases hE : (runs r s).isEmpty = true
    · simp [hE] at ht
    · have : t = s := by simpa [hE] using ht
      simp [this]
  | dollar =>
    intro s t ht
    by_cases hd : s = [] ∨ s = ['\n']
    · have : t = s := by simpa [runs, hd] using ht
      simp [this]
    · simp [runs, hd] at ht

lemma finditerAux_mem_spec (re : Re) (s : Chars) :
    ∀ (fuel pos : Nat), ∀ ab ∈ finditerAux re s pos fuel,
      ∃ t, (runs re (s.drop ab.1)).head? = some t
        ∧ ab.2 = ab.1 + ((s.drop ab.1).length - t.length) := by
  intro fuel
  induction fuel with
  | zero =>
    intro pos ab h
    simp [finditerAux] at h
  | succ fuel ih =>
    intro pos ab h
    rw [finditerAux_succ] at h
    cases hfm : firstMatchLen re (s.drop pos) with
    | some n =>
      rw [hfm] at h
      rcases List.mem_cons.mp h with rfl | h'
      · unfold firstMatchLen at hfm
        cases hr : runs re (s.drop pos) with
        | nil =>
          rw [hr] at hfm
          simp at hfm
        | cons a as =>
          rw [hr] at hfm
          simp only [Option.some.injEq] at hfm
          refine ⟨a, rfl, ?_⟩
          show pos + n = pos + ((s.drop pos).length - a.length)
          rw [← hfm]
      · exact ih _ ab h'
    | none =>
      rw [hfm] at h
      by_cases hpos : pos < s.length
      · rw [if_pos hpos] at h
        exact ih _ ab h
      · rw [if_neg hpos] at h
        simp at h

/-- Wherever a match attempt of the full "The question is whether" pattern
starts at or before the phrase occurrence `u ++ phrase ++ '.' :: v` (with
the period's lookahead satisfied), the match the engine commits to keeps a
remainder at least as long as `v`, i.e. it ends at or before that period. -/
lemma runs_reQuestion_head_bound (u v : Chars) (p : Nat)
    (hv : v = [] ∨ ∃ c w, v = c :: w ∧ isSpacePy c)
    (hp : p ≤ u.length) :
    ∀ t, (runs reQuestion
        ((u ++ "The question is whether".data ++ '.' :: v).drop p)).head? = some t →
      v.length ≤ t.length := by
  have hw : (u ++ "The question is whether".data ++ '.' :: v).drop p
      = (u.drop p ++ "The question is whether".data) ++ '.' :: v := by
    rw [List.drop_append_of_le_length (by simp; omega),
      List.drop_append_of_le_length hp]
  rw [hw, reQuestion, runs_seq]
  refine head?_flatMap_prop _ _ (fun t : Chars => v.length ≤ t.length) ?_
  intro y hy
  obtain ⟨w₀, heq, hw₀⟩ := runs_reQPre_consumed 50 _ y hy
  obtain ⟨hl0, hy'⟩ :=
    eq_append_cons_no_c '.' w₀ (u.drop p ++ "The question is whether".data) y v heq hw₀
  subst hy'
  simp only [runs_seq, runs_lit]
  by_cases hlt : litTakes ciF "The question is whether".data
      ((u.drop p ++ "The question is whether".data).drop w₀.length ++ '.' :: v) = true
  · by_cases hylen : ((u.drop p ++ "The question is whether".data).drop w₀.length).length
        < ("The question is whether".data).length
    · exfalso
      have hdot : ∀ q ∈ "The question is whether".data, ciF q '.' = false := by decide
      have hfalse := litTakes_dot_false ciF _ '.' hdot _ v hylen
      rw [hlt] at hfalse
      exact absurd hfalse (by simp)
    · rw [if_pos hlt]
      simp only [List.flatMap_cons, List.flatMap_nil, List.append_nil]
      have hdr : (((u.drop p ++ "The question is whether".data).drop w₀.length ++ '.' :: v).drop
            ("The question is whether".data).length)
          = ((u.drop p ++ "The question is whether".data).drop w₀.length).drop
              ("The question is whether".data).length ++ '.' :: v :=
        List.drop_append_of_le_length (by omega)
      rw [hdr]
      rcases runs_reQLazy_bound v hv _ with hnil | ⟨t', ht', hq⟩
      · left
        exact hnil
      · right
        exact ⟨t', ht', hq⟩
  · rw [if_neg hlt]
    left
    rfl

/-- Claim C5, counterexample: in the document
`The question is whether.x Oh well. Done.` the phrase is immediately
followed by a period at index 23 (so the span of phrase-plus-period is
`[0, 24)`), yet the single match of the pattern is `(0, 34)`: it runs past
that period and into the following sentence, because the lookahead
`(?=\s|$)` rejects the period before `x`. -/
theorem c5_counterexample :
    finditer reQuestion "The question is whether.x Oh well. Done.".data = [(0, 34)] ∧
    sliceOf "The question is whether.x Oh well. Done.".data 0 24
      = "The question is whether".data ++ ['.'] ∧
    24 < 34 := by
  refine ⟨by decide, by decide, by decide⟩

/-- Claim C5, amended: in a document `u ++ "The question is whether" ++ "."
++ v` where the period is followed by whitespace or end-of-text, every
match of the pattern "The question is whether" that starts at or before
the phrase occurrence ends at or before that period (offset `|u| + 24`),
and so does not extend into the following sentence.  (As stated the claim
is false: the match may run past the period when the period is not
followed by whitespace, and later phrase occurrences inside `v` produce
matches beyond it.) -/
theorem c5_amended_theorem (u v : Chars)
    (hv : v = [] ∨ ∃ c w, v = c :: w ∧ isSpacePy c) :
    ∀ ab ∈ finditer reQuestion (u ++ "The question is whether".data ++ '.' :: v),
      ab.1 ≤ u.length → ab.2 ≤ u.length + 24 := by
  intro ab hab hstart
  obtain ⟨t, hhd, hend⟩ := finditerAux_mem_spec reQuestion _ _ _ ab hab
  have hQ : v.length ≤ t.length := runs_reQuestion_head_bound u v ab.1 hv hstart t hhd
  have hmem : t ∈ runs reQuestion
      ((u ++ "The question is whether".data ++ '.' :: v).drop ab.1) := by
    cases hr : runs reQuestion ((u ++ "The question is whether".data ++ '.' :: v).drop ab.1) with
    | nil =>
      rw [hr] at hhd
      simp at hhd
    | cons a as =>
      rw [hr] at hhd
      simp only [List.head?_cons, Option.some.injEq] at hhd
      rw [← hhd]
      exact List.mem_cons_self _ _
  have htle := runs_length_le reQuestion _ t hmem
  have hslen : (u ++ "The question is whether".data ++ '.' :: v).length
      = u.length + 24 + v.length := by
    have h23 : ("The question is whether".data).length = 23 := by decide
    simp [h23]
    omega
  have hdlen : ((u ++ "The question is whether".data ++ '.' :: v).drop ab.1).length
      = (u ++ "The question is whether".data ++ '.' :: v).length - ab.1 :=
    List.length_drop _ _
  omega

/-- Claim C5, witness: the amended bound evaluated on
`Say, The question is whether. Ok.`, whose single match is `(0, 29)`
with `|u| + 24 = 29`. -/
theorem c5_amended_witness :
    ((0, 29) : Nat × Nat).2 ≤ ("Say, ".data).length + 24 :=
  c5_amended_theorem "Say, ".data " Ok.".data
    (Or.inr ⟨' ', "Ok.".data, by decide, by decide⟩)
    (0, 29) (by decide) (by decide)
